import Mathlib

set_option maxHeartbeats 1000000

/-
Verification development for the fractal-pattern generator and the
phase-shift audio codec of this repository.

Embedded source functions:
* generate_fractal_pattern   (src/tests/fractal_encoding/timing_test.py, lines 12-32;
  the same function is duplicated verbatim in tuning_suite_v2.py and, with a
  different seed derivation, in src/scripts/identity/sovereign_engine.py)
* apply_phase_shift, encode_phase_fractal
  (src/tests/fractal_encoding/tuning_suite_v2.py, lines 27-58; the class method
  PhaseShiftEncoder.encode_audio of
  src/scripts/fractal_encoding/phase_shift_encoder.py, lines 14-46, is the same
  code with the chunk size fixed to 2048)
* verify_encoding, detect_fractal_pattern
  (src/scripts/fractal_encoding/phase_shift_encoder.py, lines 48-66)

Conventions of the embedding:
* Python float arithmetic is modelled exactly: by rationals where only field
  operations occur (pattern values, strengths, shift counts), and by real and
  complex numbers for the Fourier-transform pipeline and the correlation,
  whose values are irrational.
* numpy's seeded RandomState is abstracted by the stream X : ℕ → ℚ of the raw
  draws of the generator, one per call; rng.uniform(lo, hi) returns
  lo + (hi - lo) * X k for the k-th call.  In the source the integer seeding
  the RandomState is hash(seed) % 2**32, where hash is CPython's salted
  string hash, so the stream is a function of both the seed and the
  per-process hash salt.
* Fallible numpy operations are modelled with Except String; each error
  string names the exception the Python operation raises at that point.
-/

namespace FractalCodec

/-- Python range(start, stop, step) for a positive step, as the list of its
elements.  The element count is the ceiling of (stop - start) / step.  (The
source raises before a range with step 0 is ever built; callers of this
definition check step separately.) -/
def pyRange (start stop step : ℕ) : List ℕ :=
  List.range' start ((stop - start + step - 1) / step) step

/-- Python int() applied to an exact rational: truncation toward zero. -/
def pyTrunc (q : ℚ) : ℤ :=
  if 0 ≤ q then ⌊q⌋ else -⌊-q⌋

/-- One sweep of the inner for-loop of generate_fractal_pattern
(timing_test.py lines 25-28): for each listed index i with i + step < n,
write (pattern[i-step] + pattern[i+step]) / 2 plus the perturbation
rng.uniform(-scale, scale) = scale * (2 * X k - 1) at position i, consuming
one draw.  The two Python statements (assignment, then +=) are combined into
the single value written. -/
def passIndices (X : ℕ → ℚ) (n step : ℕ) (scale : ℚ) :
    List ℕ → List ℚ → ℕ → List ℚ × ℕ
  | [], pat, k => (pat, k)
  | i :: rest, pat, k =>
    if i + step < n then
      passIndices X n step scale rest
        (pat.set i ((pat.getD (i - step) 0 + pat.getD (i + step) 0) / 2
          + scale * (2 * X k - 1))) (k + 1)
    else
      passIndices X n step scale rest pat k

/-- While-loop of generate_fractal_pattern (timing_test.py lines 24-30):
while step > 0, sweep the indices range(step, n, step * 2), then step //= 2
and scale *= 0.5. -/
def refineLoop (X : ℕ → ℚ) (n : ℕ) (step : ℕ) (scale : ℚ)
    (pat : List ℚ) (k : ℕ) : List ℚ :=
  if h : step = 0 then pat
  else
    let pk := passIndices X n step scale (pyRange step n (step * 2)) pat k
    refineLoop X n (step / 2) (scale * (1 / 2)) pk.1 pk.2
termination_by step
decreasing_by exact Nat.div_lt_self (Nat.pos_of_ne_zero h) one_lt_two

/-- generate_fractal_pattern(seed, length) of timing_test.py lines 12-32.
The stream X abstracts the draws of np.random.RandomState(hash(seed) % 2**32);
pattern[0] = rng.uniform(-1, 1) is the zeroth draw 2 * X 0 - 1, and the
refinement loop starts with the draw counter at 1. -/
def generate_fractal_pattern (X : ℕ → ℚ) (length : ℕ) : List ℚ :=
  let pat := (List.replicate length (0 : ℚ)).set 0 (2 * X 0 - 1)
  refineLoop X length (length / 2) 1 pat 1

/-! Helper lemmas about list updates and pyRange. -/

theorem getD_set_ne (l : List ℚ) (i j : ℕ) (v : ℚ) (h : i ≠ j) :
    (l.set i v).getD j 0 = l.getD j 0 := by
  induction l generalizing i j with
  | nil => simp
  | cons a t ih =>
    cases i with
    | zero =>
      cases j with
      | zero => exact absurd rfl h
      | succ j => simp
    | succ i =>
      cases j with
      | zero => simp
      | succ j => simpa using ih i j (by omega)

theorem getD_set_self (l : List ℚ) (i : ℕ) (v : ℚ) (h : i < l.length) :
    (l.set i v).getD i 0 = v := by
  induction l generalizing i with
  | nil => simp at h
  | cons a t ih =>
    cases i with
    | zero => simp
    | succ i =>
      rw [List.set_cons_succ, List.getD_cons_succ]
      exact ih i (by simp at h; omega)

theorem getD_replicate_zero (n j : ℕ) :
    (List.replicate n (0 : ℚ)).getD j 0 = 0 := by
  induction n generalizing j with
  | zero => simp
  | succ n ih =>
    cases j with
    | zero => simp
    | succ j => rw [List.replicate_succ, List.getD_cons_succ]; exact ih j

theorem pyRange_eq_nil (a b st : ℕ) (h : b ≤ a) : pyRange a b st = [] := by
  unfold pyRange
  have hba : b - a = 0 := Nat.sub_eq_zero_of_le h
  rw [hba]
  rcases Nat.eq_zero_or_pos st with hst | hst
  · simp [hst]
  · have : (0 + st - 1) / st = 0 := Nat.div_eq_of_lt (by omega)
    rw [this]
    rfl

theorem pyRange_cons (a b st : ℕ) (hst : 1 ≤ st) (hab : a < b) :
    pyRange a b st = a :: pyRange (a + st) b st := by
  unfold pyRange
  have hcount : (b - a + st - 1) / st = (b - (a + st) + st - 1) / st + 1 := by
    rcases Nat.le_total (b - a) st with hle | hlt
    · have h1 : (b - a + st - 1) / st = 1 := by
        apply Nat.div_eq_of_lt_le
        · omega
        · omega
      have h2 : b - (a + st) = 0 := by omega
      rw [h1, h2]
      have : (0 + st - 1) / st = 0 := Nat.div_eq_of_lt (by omega)
      rw [this]
    · have h3 : b - a + st - 1 = (b - (a + st) + st - 1) + st := by omega
      rw [h3, Nat.add_div_right _ (by omega)]
  rw [hcount, List.range'_succ]

theorem pyRange_mem_lower (a b st i : ℕ) (h : i ∈ pyRange a b st) : a ≤ i := by
  unfold pyRange at h
  rw [List.mem_range'] at h
  obtain ⟨t, _, rfl⟩ := h
  omega

/-! Invariants of the generator loops. -/

theorem passIndices_length (X : ℕ → ℚ) (n step : ℕ) (scale : ℚ) :
    ∀ (idxs : List ℕ) (pat : List ℚ) (k : ℕ),
      (passIndices X n step scale idxs pat k).1.length = pat.length := by
  intro idxs
  induction idxs with
  | nil => intro pat k; rfl
  | cons i rest ih =>
    intro pat k
    by_cases h : i + step < n
    · simp only [passIndices, if_pos h]
      rw [ih]
      exact List.length_set pat i _
    · simp only [passIndices, if_neg h]
      exact ih pat k

theorem passIndices_getD_untouched (X : ℕ → ℚ) (n step : ℕ) (scale : ℚ) (j : ℕ) :
    ∀ (idxs : List ℕ) (pat : List ℚ) (k : ℕ),
      (∀ i ∈ idxs, i + step < n → i ≠ j) →
      (passIndices X n step scale idxs pat k).1.getD j 0 = pat.getD j 0 := by
  intro idxs
  induction idxs with
  | nil => intro pat k _; rfl
  | cons i rest ih =>
    intro pat k hidx
    by_cases h : i + step < n
    · simp only [passIndices, if_pos h]
      rw [ih _ _ fun i' hi' hlt => hidx i' (List.mem_cons_of_mem _ hi') hlt]
      exact getD_set_ne _ _ _ _ (hidx i (List.mem_cons_self i rest) h)
    · simp only [passIndices, if_neg h]
      exact ih _ _ fun i' hi' hlt => hidx i' (List.mem_cons_of_mem _ hi') hlt

theorem refineLoop_length (X : ℕ → ℚ) (n : ℕ) :
    ∀ (step : ℕ) (scale : ℚ) (pat : List ℚ) (k : ℕ),
      (refineLoop X n step scale pat k).length = pat.length := by
  intro step
  induction step using Nat.strong_induction_on with
  | _ step ih =>
    intro scale pat k
    rw [refineLoop]
    by_cases h : step = 0
    · simp [h]
    · simp only [dif_neg h]
      rw [ih (step / 2) (Nat.div_lt_self (Nat.pos_of_ne_zero h) one_lt_two)]
      exact passIndices_length X n step scale _ pat k

/-- Entries that no sweep ever writes are preserved by the whole refinement
loop: position 0 (every written index i satisfies step ≤ i and step ≥ 1) and
position n - 1 (every written index satisfies i + step < n with step ≥ 1). -/
theorem refineLoop_getD_zero (X : ℕ → ℚ) (n : ℕ) :
    ∀ (step : ℕ) (scale : ℚ) (pat : List ℚ) (k : ℕ),
      (refineLoop X n step scale pat k).getD 0 0 = pat.getD 0 0 := by
  intro step
  induction step using Nat.strong_induction_on with
  | _ step ih =>
    intro scale pat k
    rw [refineLoop]
    by_cases h : step = 0
    · simp [h]
    · simp only [dif_neg h]
      rw [ih (step / 2) (Nat.div_lt_self (Nat.pos_of_ne_zero h) one_lt_two)]
      apply passIndices_getD_untouched
      intro i hi _
      have := pyRange_mem_lower _ _ _ _ hi
      omega

theorem refineLoop_getD_last (X : ℕ → ℚ) (n : ℕ) (hn : 1 ≤ n) :
    ∀ (step : ℕ) (scale : ℚ) (pat : List ℚ) (k : ℕ),
      (refineLoop X n step scale pat k).getD (n - 1) 0 = pat.getD (n - 1) 0 := by
  intro step
  induction step using Nat.strong_induction_on with
  | _ step ih =>
    intro scale pat k
    rw [refineLoop]
    by_cases h : step = 0
    · simp [h]
    · simp only [dif_neg h]
      rw [ih (step / 2) (Nat.div_lt_self (Nat.pos_of_ne_zero h) one_lt_two)]
      apply passIndices_getD_untouched
      intro i hi hlt
      have := pyRange_mem_lower _ _ _ _ hi
      omega

/-! Spec-side rendition of the generator algorithm (section 4.1 of the spec),
used for the refinement claim C3.  The sequence is represented as a function
on indices, updated pointwise; the steps follow the spec text: allocate
zeros, set element 0 to a uniform value in [-1, 1], then while step > 0
sweep the indices from step to length stepping by 2 * step, setting each
accepted element to the average of its two neighbours plus a uniform
perturbation in [-scale, scale], halving step and scale after each sweep. -/

def specSet (f : ℕ → ℚ) (i : ℕ) (v : ℚ) : ℕ → ℚ :=
  fun j => if j = i then v else f j

/-- Spec step 3, one sweep: for each index i from step to n stepping by
2 * step, if i + step < n, set element i to the average of elements i - step
and i + step plus the uniform perturbation in [-scale, scale]. -/
def specSweep (X : ℕ → ℚ) (n step : ℕ) (scale : ℚ) :
    List ℕ → (ℕ → ℚ) → ℕ → (ℕ → ℚ) × ℕ
  | [], f, k => (f, k)
  | i :: rest, f, k =>
    if i + step < n then
      specSweep X n step scale rest
        (specSet f i ((f (i - step) + f (i + step)) / 2 + scale * (2 * X k - 1)))
        (k + 1)
    else
      specSweep X n step scale rest f k

/-- Spec step 3, the while-loop: while step > 0, sweep, then halve step
(integer division) and halve scale. -/
def specWhile (X : ℕ → ℚ) (n : ℕ) (step : ℕ) (scale : ℚ)
    (f : ℕ → ℚ) (k : ℕ) : ℕ → ℚ :=
  if h : step = 0 then f
  else
    let pk := specSweep X n step scale (pyRange step n (step * 2)) f k
    specWhile X n (step / 2) (scale / 2) pk.1 pk.2
termination_by step
decreasing_by exact Nat.div_lt_self (Nat.pos_of_ne_zero h) one_lt_two

/-- Spec steps 1-4 assembled: the length-n sequence produced by midpoint
displacement, read back as a list. -/
def generateSpec (X : ℕ → ℚ) (length : ℕ) : List ℚ :=
  let f0 := specSet (fun _ => 0) 0 (2 * X 0 - 1)
  (List.range length).map (specWhile X length (length / 2) 1 f0 1)

/-- Agreement between a source-side list state and a spec-side functional
state on all positions below n, together with the length invariant. -/
def StateRel (n : ℕ) (pat : List ℚ) (f : ℕ → ℚ) : Prop :=
  pat.length = n ∧ ∀ j, j < n → pat.getD j 0 = f j

theorem specSweep_rel (X : ℕ → ℚ) (n step : ℕ) (scale : ℚ) :
    ∀ (idxs : List ℕ) (pat : List ℚ) (f : ℕ → ℚ) (k : ℕ),
      StateRel n pat f →
      StateRel n (passIndices X n step scale idxs pat k).1
          (specSweep X n step scale idxs f k).1 ∧
        (passIndices X n step scale idxs pat k).2
          = (specSweep X n step scale idxs f k).2 := by
  intro idxs
  induction idxs with
  | nil => intro pat f k h; exact ⟨h, rfl⟩
  | cons i rest ih =>
    intro pat f k h
    obtain ⟨hlen, hval⟩ := h
    by_cases hg : i + step < n
    · simp only [passIndices, specSweep, if_pos hg]
      apply ih
      have hi : i < n := by omega
      have his : i - step < n := by omega
      have hips : i + step < n := hg
      have hw : (pat.getD (i - step) 0 + pat.getD (i + step) 0) / 2
          + scale * (2 * X k - 1)
          = (f (i - step) + f (i + step)) / 2 + scale * (2 * X k - 1) := by
        rw [hval _ his, hval _ hips]
      constructor
      · rw [List.length_set]; exact hlen
      · intro j hj
        by_cases hji : j = i
        · subst hji
          rw [getD_set_self _ _ _ (by omega), specSet, if_pos rfl, hw]
        · rw [getD_set_ne _ _ _ _ (fun hij => hji hij.symm), specSet, if_neg hji]
          exact hval j hj
    · simp only [passIndices, specSweep, if_neg hg]
      exact ih pat f k ⟨hlen, hval⟩

theorem specWhile_rel (X : ℕ → ℚ) (n : ℕ) :
    ∀ (step : ℕ) (scale : ℚ) (pat : List ℚ) (f : ℕ → ℚ) (k : ℕ),
      StateRel n pat f →
      StateRel n (refineLoop X n step scale pat k) (specWhile X n step scale f k) := by
  intro step
  induction step using Nat.strong_induction_on with
  | _ step ih =>
    intro scale pat f k h
    rw [refineLoop, specWhile]
    by_cases hs : step = 0
    · simpa [hs] using h
    · simp only [dif_neg hs]
      obtain ⟨hrel, hk⟩ := specSweep_rel X n step scale (pyRange step n (step * 2)) pat f k h
      rw [hk]
      have hsc : scale * (1 / 2) = scale / 2 := by ring
      rw [hsc]
      exact ih (step / 2) (Nat.div_lt_self (Nat.pos_of_ne_zero hs) one_lt_two) _ _ _ _ hrel

/-! Results about the generator. -/

/-- C3: for every draw stream and every length n >= 2, the source function
generate_fractal_pattern follows the spec's midpoint-displacement algorithm
exactly: it produces the same sequence as the step-by-step rendition of the
spec text (zero allocation, element 0 from the generator, guarded averaging
sweeps with halving step and scale). -/
theorem generate_matches_spec (X : ℕ → ℚ) (n : ℕ) (hn : 2 ≤ n) :
    generateSpec X n = generate_fractal_pattern X n := by
  have h0 : StateRel n ((List.replicate n (0 : ℚ)).set 0 (2 * X 0 - 1))
      (specSet (fun _ => 0) 0 (2 * X 0 - 1)) := by
    constructor
    · rw [List.length_set, List.length_replicate]
    · intro j hj
      by_cases hj0 : j = 0
      · subst hj0
        rw [getD_set_self _ _ _ (by simp; omega), specSet, if_pos rfl]
      · rw [getD_set_ne _ _ _ _ (fun h => hj0 h.symm), specSet, if_neg hj0,
          getD_replicate_zero]
  obtain ⟨hlen, hval⟩ := specWhile_rel X n (n / 2) 1 _ _ 1 h0
  have hval' : ∀ j, j < n →
      (generate_fractal_pattern X n).getD j 0
        = specWhile X n (n / 2) 1 (specSet (fun _ => 0) 0 (2 * X 0 - 1)) 1 j := hval
  apply List.ext_getElem
  · simp [generateSpec, generate_fractal_pattern, hlen]
  · intro i h1 h2
    have hi : i < n := by simpa [generateSpec] using h1
    simp only [generateSpec, List.getElem_map, List.getElem_range]
    rw [← hval' i hi]
    exact List.getD_eq_getElem _ 0 h2

/-- C3 witness: a concrete instantiation of generate_matches_spec. -/
theorem generate_matches_spec_witness :
    2 ≤ 13 ∧ generateSpec (fun k => (k : ℚ) / 7) 13
      = generate_fractal_pattern (fun k => (k : ℚ) / 7) 13 :=
  ⟨by norm_num, generate_matches_spec (fun k => (k : ℚ) / 7) 13 (by norm_num)⟩

/-- C10: for every draw stream and every length n >= 2 the generated pattern
has length n, its final element (index n - 1) is exactly 0 (the refinement
loop only writes indices i with i + step < n and step >= 1, so index n - 1 is
never written after the zero allocation), and for n = 2 the whole pattern is
[first draw, 0], so only element 0 can be nonzero. -/
theorem generate_last_zero (X : ℕ → ℚ) (n : ℕ) (hn : 2 ≤ n) :
    (generate_fractal_pattern X n).length = n ∧
      (generate_fractal_pattern X n).getD (n - 1) 0 = 0 ∧
      generate_fractal_pattern X 2 = [2 * X 0 - 1, 0] := by
  refine ⟨?_, ?_, ?_⟩
  · unfold generate_fractal_pattern
    rw [refineLoop_length, List.length_set, List.length_replicate]
  · unfold generate_fractal_pattern
    rw [refineLoop_getD_last X n (by omega)]
    rw [getD_set_ne _ _ _ _ (by omega), getD_replicate_zero]
  · unfold generate_fractal_pattern
    rw [refineLoop]
    norm_num
    have hr : pyRange 1 2 2 = [1] := by decide
    rw [hr]
    simp only [passIndices]
    norm_num
    rw [refineLoop]
    simp

/-- C10 witness: a concrete instantiation of generate_last_zero. -/
theorem generate_last_zero_witness :
    (generate_fractal_pattern (fun k => (k : ℚ) / 3) 5).length = 5 ∧
      (generate_fractal_pattern (fun k => (k : ℚ) / 3) 5).getD 4 0 = 0 ∧
      generate_fractal_pattern (fun k => (k : ℚ) / 3) 2
        = [2 * ((0 : ℚ) / 3) - 1, 0] :=
  generate_last_zero (fun k => (k : ℚ) / 3) 5 (by norm_num)

/-- C1: the generated pattern is a sensitive function of the stream drawn
from the seeded RandomState: streams that differ in their zeroth draw give
different patterns (element 0 is 2 * X 0 - 1).  In the source the RandomState
is seeded with hash(seed) % 2**32, and CPython's string hash is salted per
process, so the stream — and with it the pattern — varies between runs for
the same seed; byte-identical output across runs and platforms would require
a stable hash, which the source does not use. -/
theorem generate_rng_sensitive (X₁ X₂ : ℕ → ℚ) (n : ℕ) (hn : 2 ≤ n)
    (hne : X₁ 0 ≠ X₂ 0) :
    generate_fractal_pattern X₁ n ≠ generate_fractal_pattern X₂ n := by
  intro heq
  apply hne
  have h1 : (generate_fractal_pattern X₁ n).getD 0 0 = 2 * X₁ 0 - 1 := by
    unfold generate_fractal_pattern
    rw [refineLoop_getD_zero, getD_set_self _ _ _ (by simp; omega)]
  have h2 : (generate_fractal_pattern X₂ n).getD 0 0 = 2 * X₂ 0 - 1 := by
    unfold generate_fractal_pattern
    rw [refineLoop_getD_zero, getD_set_self _ _ _ (by simp; omega)]
  rw [heq, h2] at h1
  linarith

/-- C1 witness: a concrete instantiation of generate_rng_sensitive. -/
theorem generate_rng_sensitive_witness :
    2 ≤ 2 ∧ (fun _ : ℕ => (0 : ℚ)) 0 ≠ (fun _ : ℕ => (1 : ℚ)) 0 ∧
      generate_fractal_pattern (fun _ => (0 : ℚ)) 2
        ≠ generate_fractal_pattern (fun _ => (1 : ℚ)) 2 :=
  ⟨by norm_num, by norm_num,
    generate_rng_sensitive _ _ 2 (by norm_num) (by norm_num)⟩

/-! Phase-shift codec (tuning_suite_v2.py lines 27-58 and the identical class
methods of phase_shift_encoder.py).  Sample values are real numbers; the
discrete Fourier transforms follow numpy's conventions. -/

/-- np.fft.fft: X_k = sum_j x_j * exp(-2 pi i j k / N). -/
noncomputable def dft (xs : List ℝ) : List ℂ :=
  (List.range xs.length).map fun (k : ℕ) =>
    ((List.range xs.length).map fun (j : ℕ) =>
      (xs.getD j 0 : ℂ)
        * Complex.exp (-(2 * (Real.pi : ℂ) * Complex.I * (k : ℂ) * (j : ℂ))
          / (xs.length : ℂ))).sum

/-- np.fft.ifft: x_j = (1 / N) * sum_k X_k * exp(2 pi i j k / N). -/
noncomputable def idft (fs : List ℂ) : List ℂ :=
  (List.range fs.length).map fun (j : ℕ) =>
    (1 / (fs.length : ℂ))
      * ((List.range fs.length).map fun (k : ℕ) =>
        fs.getD k 0
          * Complex.exp (2 * (Real.pi : ℂ) * Complex.I * (k : ℂ) * (j : ℂ)
            / (fs.length : ℂ))).sum

/-- np.linspace(a, b, num) with the default inclusive endpoint: num points
a + i * (b - a) / (num - 1).  For num = 1 the real division by zero yields
the single point a, as numpy does. -/
noncomputable def linspace (a b : ℝ) (num : ℕ) : List ℝ :=
  (List.range num).map fun (i : ℕ) => a + (i : ℝ) * ((b - a) / ((num : ℝ) - 1))

/-- apply_phase_shift(chunk, shift_samples) of tuning_suite_v2.py lines
27-42 (identical to phase_shift_encoder.py lines 35-46): at shift 0 the
chunk passes through unchanged; otherwise the spectrum's angles get a linear
ramp from 0 to shift_samples * 2 pi / len(chunk) and the chunk is rebuilt
from the original magnitudes as the real part of the inverse transform. -/
noncomputable def apply_phase_shift (chunk : List ℝ) (shift_samples : ℤ) :
    List ℝ :=
  if shift_samples = 0 then chunk
  else
    let freq_domain := dft chunk
    let angles := freq_domain.map Complex.arg
    let phase_shift := linspace 0
      ((shift_samples : ℝ) * 2 * Real.pi / (chunk.length : ℝ)) chunk.length
    let new_angles := List.zipWith (· + ·) angles phase_shift
    let shifted := List.zipWith
      (fun m a => (m : ℂ) * Complex.exp (Complex.I * (a : ℝ)))
      (freq_domain.map (fun z => Complex.abs z)) new_angles
    (idft shifted).map Complex.re

/-- np.max(np.abs(pattern)) for a pattern of exact rationals.  The fold
starts at 0, which never changes the maximum of a nonempty list of absolute
values; np.max of an empty array raises instead, which the caller
(encode_phase_fractal) checks first. -/
def maxAbs (l : List ℚ) : ℚ :=
  (l.map (fun q => |q|)).foldl max 0

/-- Chunk loop of encode_phase_fractal (tuning_suite_v2.py lines 51-57):
for each start index i, slice audio[i : i + cs]; a full chunk is
phase-shifted by int(fractal_norm[(i // cs) % len(pattern)] * maxShift)
samples, a short chunk is passed through; the pieces are concatenated.
When the pattern's maximum absolute value m is 0, numpy's division has
already produced NaN entries (0.0 / 0.0 with a RuntimeWarning, not an
exception), and the int() conversion of NaN * maxShift raises ValueError at
the first full chunk — the m = 0 branch models that raise. -/
noncomputable def encodeChunks (audio : List ℝ) (pattern : List ℚ) (m : ℚ)
    (maxShift : ℤ) (cs : ℕ) : List ℕ → Except String (List ℝ)
  | [] => Except.ok []
  | i :: rest =>
    let chunk := (audio.drop i).take cs
    if chunk.length = cs then
      if m = 0 then Except.error "cannot convert float NaN to integer"
      else
        let pattern_idx := (i / cs) % pattern.length
        let shift_samples := pyTrunc (pattern.getD pattern_idx 0 / m * (maxShift : ℚ))
        match encodeChunks audio pattern m maxShift cs rest with
        | Except.error e => Except.error e
        | Except.ok tail => Except.ok (apply_phase_shift chunk shift_samples ++ tail)
    else
      match encodeChunks audio pattern m maxShift cs rest with
      | Except.error e => Except.error e
      | Except.ok tail => Except.ok (chunk ++ tail)

/-- encode_phase_fractal(audio, fractal_pattern, max_shift_ms, chunk_size)
of tuning_suite_v2.py lines 44-58.  max_shift_samples =
int((max_shift_ms / 1000) * 44100).  np.max over an empty pattern raises
ValueError before the loop; range(0, len(audio), 0) raises ValueError; a
negative chunk_size makes range(0, len(audio), chunk_size) empty, so the
loop never runs and the empty collected output is returned. -/
noncomputable def encode_phase_fractal (audio : List ℝ) (fractal_pattern : List ℚ)
    (max_shift_ms : ℚ) (chunk_size : ℤ) : Except String (List ℝ) :=
  let sample_rate : ℚ := 44100
  let max_shift_samples := pyTrunc (max_shift_ms / 1000 * sample_rate)
  if fractal_pattern.length = 0 then
    Except.error "zero-size array to reduction operation maximum which has no identity"
  else
    let m := maxAbs fractal_pattern
    if chunk_size = 0 then
      Except.error "range() arg 3 must not be zero"
    else if chunk_size < 0 then
      Except.ok []
    else
      encodeChunks audio fractal_pattern m max_shift_samples chunk_size.toNat
        (pyRange 0 audio.length chunk_size.toNat)

/-- PhaseShiftEncoder.encode_audio of phase_shift_encoder.py lines 14-33:
the same chunk loop with the chunk size fixed by the class to 2048 (and
sample rate 44100). -/
noncomputable def encode_audio (audio_data : List ℝ) (fractal_pattern : List ℚ)
    (strength_ms : ℚ) : Except String (List ℝ) :=
  encode_phase_fractal audio_data fractal_pattern strength_ms 2048

/-- PhaseShiftEncoder.detect_fractal_pattern of phase_shift_encoder.py lines
63-66: the placeholder detector returns True for every input. -/
def detect_fractal_pattern (_audio_data : List ℝ) : Bool :=
  true

/-- Result dictionary of PhaseShiftEncoder.verify_encoding. -/
structure DetectionResult where
  correlation : ℝ
  audio_preserved : Prop
  encoding_detected : Bool
  meets_standards : Prop

/-- Mean of a buffer (np.mean). -/
noncomputable def npMean (xs : List ℝ) : ℝ :=
  xs.sum / xs.length

/-- Deviations from the mean. -/
noncomputable def centered (xs : List ℝ) : List ℝ :=
  xs.map fun v => v - npMean xs

/-- Pointwise product sum of two buffers. -/
noncomputable def listDot (u v : List ℝ) : ℝ :=
  (List.zipWith (· * ·) u v).sum

/-- Entry of np.cov of the two stacked rows: sum of centered products over
N - 1 observations. -/
noncomputable def covEntry (xs ys : List ℝ) : ℝ :=
  listDot (centered xs) (centered ys) / ((xs.length : ℝ) - 1)

/-- np.clip of a scalar. -/
noncomputable def npClip (v lo hi : ℝ) : ℝ :=
  max lo (min v hi)

/-- np.corrcoef(xs, ys)[0, 1] for equal-length rows: the covariance entry
divided by the square roots of the diagonal entries, clipped to [-1, 1]
(numpy clips the coefficients to that interval). -/
noncomputable def corrcoef01 (xs ys : List ℝ) : ℝ :=
  npClip (covEntry xs ys / (Real.sqrt (covEntry xs xs) * Real.sqrt (covEntry ys ys)))
    (-1) 1

/-- PhaseShiftEncoder.verify_encoding of phase_shift_encoder.py lines 48-61.
np.corrcoef stacks the two buffers into one matrix; with different lengths
that concatenation raises ValueError, so the result is computed only for
equal lengths. -/
noncomputable def verify_encoding (original encoded : List ℝ) (threshold : ℝ) :
    Except String DetectionResult :=
  if original.length = encoded.length then
    let correlation := corrcoef01 original encoded
    let audio_preserved : Prop := correlation > threshold
    let encoding_detected := detect_fractal_pattern encoded
    Except.ok
      { correlation := correlation
        audio_preserved := audio_preserved
        encoding_detected := encoding_detected
        meets_standards := audio_preserved ∧ encoding_detected = true }
  else
    Except.error "all the input array dimensions except for the concatenation axis must match exactly"

/-- Pearson correlation coefficient as the spec states it: the sum of
products of deviations over the square roots of the two sums of squared
deviations. -/
noncomputable def pearson (xs ys : List ℝ) : ℝ :=
  listDot (centered xs) (centered ys)
    / (Real.sqrt (listDot (centered xs) (centered xs))
      * Real.sqrt (listDot (centered ys) (centered ys)))

/-! Structural lemmas about the codec. -/

theorem dft_length (xs : List ℝ) : (dft xs).length = xs.length := by
  unfold dft
  rw [List.length_map, List.length_range]

theorem idft_length (fs : List ℂ) : (idft fs).length = fs.length := by
  unfold idft
  rw [List.length_map, List.length_range]

theorem linspace_length (a b : ℝ) (num : ℕ) : (linspace a b num).length = num := by
  unfold linspace
  rw [List.length_map, List.length_range]

theorem apply_phase_shift_zero (chunk : List ℝ) :
    apply_phase_shift chunk 0 = chunk := by
  simp [apply_phase_shift]

theorem apply_phase_shift_length (chunk : List ℝ) (s : ℤ) :
    (apply_phase_shift chunk s).length = chunk.length := by
  unfold apply_phase_shift
  by_cases hs : s = 0
  · rw [if_pos hs]
  · rw [if_neg hs]
    simp [idft_length, dft_length, linspace_length]

theorem maxAbs_nil : maxAbs [] = 0 := rfl

theorem pyTrunc_zero : pyTrunc 0 = 0 := by
  simp [pyTrunc]

theorem drop_append_of_length_le (l₁ l₂ : List ℝ) (n : ℕ) (h : l₁.length ≤ n) :
    (l₁ ++ l₂).drop n = l₂.drop (n - l₁.length) := by
  induction l₁ generalizing n with
  | nil => simp
  | cons a t ih =>
    cases n with
    | zero => simp at h
    | succ n =>
      rw [List.cons_append, List.drop_succ_cons, ih n (by simp at h; omega)]
      simp

theorem aligned_le_sub_mod (cs b L : ℕ) (hcs : 1 ≤ cs) (hd : cs ∣ b) (hbL : b ≤ L) :
    b ≤ L - L % cs := by
  obtain ⟨q, rfl⟩ := hd
  have h1 : q ≤ L / cs := (Nat.le_div_iff_mul_le (by omega)).mpr
    (by rw [Nat.mul_comm]; exact hbL)
  have h2 : cs * q ≤ cs * (L / cs) := Nat.mul_le_mul_left cs h1
  have h3 := Nat.div_add_mod L cs
  have hcomm : cs * q = q * cs := Nat.mul_comm cs q
  omega

theorem mod_of_aligned_partial (cs a L : ℕ) (hd : cs ∣ a) (h1 : a < L)
    (h2 : L - a < cs) : L % cs = L - a := by
  obtain ⟨q, rfl⟩ := hd
  have hL : L = cs * q + (L - cs * q) := by omega
  calc L % cs = (cs * q + (L - cs * q)) % cs := by rw [← hL]
    _ = (L - cs * q) % cs := Nat.mul_add_mod cs q (L - cs * q)
    _ = L - cs * q := Nat.mod_eq_of_lt h2

/-- Master lemma for the chunk loop when the pattern's maximum is nonzero:
starting at an aligned index a, the loop succeeds, its output covers the
remaining audio.length - a samples, and everything from the last chunk
boundary onwards is the untouched input tail. -/
theorem encodeChunks_ok (audio : List ℝ) (pattern : List ℚ) (m : ℚ)
    (ms : ℤ) (cs : ℕ) (hm : m ≠ 0) (hcs : 1 ≤ cs) :
    ∀ N a : ℕ, audio.length - a ≤ N → cs ∣ a →
      a ≤ audio.length - audio.length % cs →
      ∃ out, encodeChunks audio pattern m ms cs (pyRange a audio.length cs)
          = Except.ok out ∧
        out.length = audio.length - a ∧
        out.drop ((audio.length - audio.length % cs) - a)
          = audio.drop (audio.length - audio.length % cs) := by
  intro N
  induction N with
  | zero =>
    intro a h0 _ hal
    have hLa : audio.length ≤ a := by omega
    have hmod : audio.length % cs = 0 := by
      have := Nat.mod_le audio.length cs
      omega
    have haL : a = audio.length := by omega
    refine ⟨[], ?_, ?_, ?_⟩
    · rw [pyRange_eq_nil _ _ _ hLa]; rfl
    · simp; omega
    · rw [hmod, haL]
      simp
  | succ N ih =>
    intro a hN hdvd hal
    by_cases haL : a < audio.length
    · rw [pyRange_cons _ _ _ hcs haL]
      have hchunklen : ((audio.drop a).take cs).length
          = min cs (audio.length - a) := by
        simp
      by_cases hfull : cs ≤ audio.length - a
      · have hcl : ((audio.drop a).take cs).length = cs := by
          rw [hchunklen]; omega
        obtain ⟨tail, htail, htlen, htdrop⟩ :=
          ih (a + cs) (by omega) (by exact Dvd.dvd.add hdvd dvd_rfl)
            (aligned_le_sub_mod cs (a + cs) audio.length hcs
              (Dvd.dvd.add hdvd dvd_rfl) (by omega))
        refine ⟨apply_phase_shift ((audio.drop a).take cs)
            (pyTrunc (pattern.getD ((a / cs) % pattern.length) 0 / m * (ms : ℚ)))
            ++ tail, ?_, ?_, ?_⟩
        · simp only [encodeChunks, hcl, eq_self_iff_true, if_true, if_neg hm, htail]
        · rw [List.length_append, apply_phase_shift_length, hcl, htlen]
          omega
        · have hacs : a + cs ≤ audio.length - audio.length % cs :=
            aligned_le_sub_mod cs (a + cs) audio.length hcs
              (Dvd.dvd.add hdvd dvd_rfl) (by omega)
          rw [drop_append_of_length_le _ _ _
            (by rw [apply_phase_shift_length, hcl]; omega)]
          rw [apply_phase_shift_length, hcl]
          have harith : audio.length - audio.length % cs - a - cs
              = audio.length - audio.length % cs - (a + cs) := by omega
          rw [harith]
          exact htdrop
      · have hcl : ((audio.drop a).take cs).length = audio.length - a := by
          rw [hchunklen]; omega
        have hne : ((audio.drop a).take cs).length ≠ cs := by omega
        have hrest : pyRange (a + cs) audio.length cs = [] :=
          pyRange_eq_nil _ _ _ (by omega)
        have hmod : audio.length % cs = audio.length - a :=
          mod_of_aligned_partial cs a audio.length hdvd haL (by omega)
        have hchunk_all : (audio.drop a).take cs = audio.drop a :=
          List.take_of_length_le (by simp; omega)
        refine ⟨(audio.drop a).take cs, ?_, ?_, ?_⟩
        · simp only [encodeChunks, if_neg hne, hrest]
          simp [encodeChunks]
        · exact hcl
        · have hDa : audio.length - audio.length % cs = a := by omega
          rw [hDa]
          simp only [Nat.sub_self, List.drop_zero]
          rw [hchunk_all]
    · have hLa : audio.length ≤ a := by omega
      have hmod : audio.length % cs = 0 := by
        have := Nat.mod_le audio.length cs
        omega
      have haL : a = audio.length := by omega
      refine ⟨[], ?_, ?_, ?_⟩
      · rw [pyRange_eq_nil _ _ _ hLa]; rfl
      · simp; omega
      · rw [hmod, haL]
        simp

/-- Master lemma for the chunk loop at maximum shift count 0: every chunk
passes through unchanged and the loop reproduces the audio tail exactly. -/
theorem encodeChunks_id (audio : List ℝ) (pattern : List ℚ) (m : ℚ)
    (cs : ℕ) (hm : m ≠ 0) (hcs : 1 ≤ cs) :
    ∀ N a : ℕ, audio.length - a ≤ N →
      encodeChunks audio pattern m 0 cs (pyRange a audio.length cs)
        = Except.ok (audio.drop a) := by
  intro N
  induction N with
  | zero =>
    intro a h0
    rw [pyRange_eq_nil _ _ _ (by omega), List.drop_eq_nil_of_le (by omega)]
    rfl
  | succ N ih =>
    intro a hN
    by_cases haL : a < audio.length
    · rw [pyRange_cons _ _ _ hcs haL]
      have hshift : pyTrunc (pattern.getD ((a / cs) % pattern.length) 0 / m
          * ((0 : ℤ) : ℚ)) = 0 := by
        rw [Int.cast_zero, mul_zero, pyTrunc_zero]
      by_cases hfull : cs ≤ audio.length - a
      · have hcl : ((audio.drop a).take cs).length = cs := by simp; omega
        simp only [encodeChunks, hcl, eq_self_iff_true, if_true, if_neg hm,
          ih (a + cs) (by omega), hshift, apply_phase_shift_zero]
        have hdd : audio.drop (a + cs) = (audio.drop a).drop cs := by
          rw [List.drop_drop, Nat.add_comm]
        rw [hdd, List.take_append_drop]
      · have hne : ((audio.drop a).take cs).length ≠ cs := by simp; omega
        have hrest : pyRange (a + cs) audio.length cs = [] :=
          pyRange_eq_nil _ _ _ (by omega)
        have hchunk_all : (audio.drop a).take cs = audio.drop a :=
          List.take_of_length_le (by simp; omega)
        simp only [encodeChunks, if_neg hne, hrest]
        simp [encodeChunks, hchunk_all]
    · rw [pyRange_eq_nil _ _ _ (by omega), List.drop_eq_nil_of_le (by omega)]
      rfl

theorem maxAbs_ne_zero_nonempty (pattern : List ℚ) (hm : maxAbs pattern ≠ 0) :
    pattern.length ≠ 0 := by
  intro h
  rw [List.length_eq_zero] at h
  rw [h, maxAbs_nil] at hm
  exact hm rfl

/-- Reduction of encode_audio to the chunk loop, for a pattern whose maximum
absolute value is nonzero. -/
theorem encode_audio_eq_chunks (audio : List ℝ) (pattern : List ℚ) (s : ℚ)
    (hm : maxAbs pattern ≠ 0) :
    encode_audio audio pattern s
      = encodeChunks audio pattern (maxAbs pattern)
        (pyTrunc (s / 1000 * 44100)) 2048 (pyRange 0 audio.length 2048) := by
  unfold encode_audio encode_phase_fractal
  rw [if_neg (maxAbs_ne_zero_nonempty pattern hm)]
  norm_num
  rfl

/-- C4: for every audio buffer, every pattern whose maximum absolute value is
nonzero, and every strength, encode_audio succeeds and the returned buffer
has exactly the length of the input buffer. -/
theorem encode_length_invariant (audio : List ℝ) (pattern : List ℚ) (s : ℚ)
    (hm : maxAbs pattern ≠ 0) :
    ∃ out, encode_audio audio pattern s = Except.ok out
      ∧ out.length = audio.length := by
  rw [encode_audio_eq_chunks audio pattern s hm]
  obtain ⟨out, hout, hlen, _⟩ :=
    encodeChunks_ok audio pattern (maxAbs pattern) (pyTrunc (s / 1000 * 44100))
      2048 hm (by norm_num) audio.length 0 (by omega) (dvd_zero 2048) (by omega)
  exact ⟨out, hout, by omega⟩

/-- C4 witness: a concrete instantiation of encode_length_invariant. -/
theorem encode_length_invariant_witness :
    maxAbs [(1 : ℚ)] ≠ 0 ∧
      ∃ out, encode_audio [(1 : ℝ)] [(1 : ℚ)] 5 = Except.ok out
        ∧ out.length = [(1 : ℝ)].length :=
  ⟨by decide, encode_length_invariant [(1 : ℝ)] [(1 : ℚ)] 5 (by decide)⟩

/-- C5: encoding at strength 0 is the identity, exactly: the computed
maximum shift is int(0 / 1000 * 44100) = 0, so every chunk's shift count is
int(v * 0) = 0 and apply_phase_shift passes each chunk through unchanged,
with no transform round-trip. -/
theorem encode_zero_strength_identity (audio : List ℝ) (pattern : List ℚ)
    (hm : maxAbs pattern ≠ 0) :
    encode_audio audio pattern 0 = Except.ok audio := by
  rw [encode_audio_eq_chunks audio pattern 0 hm]
  have harg : (0 : ℚ) / 1000 * 44100 = 0 := by norm_num
  rw [harg, pyTrunc_zero]
  rw [encodeChunks_id audio pattern (maxAbs pattern) 2048 hm (by norm_num)
    audio.length 0 (by omega)]
  rw [List.drop_zero]

/-- C5 witness: a concrete instantiation of encode_zero_strength_identity. -/
theorem encode_zero_strength_identity_witness :
    maxAbs [(1 : ℚ)] ≠ 0 ∧
      encode_audio [(2 : ℝ), 3] [(1 : ℚ)] 0 = Except.ok [(2 : ℝ), 3] :=
  ⟨by decide, encode_zero_strength_identity [(2 : ℝ), 3] [(1 : ℚ)] (by decide)⟩

/-- C6: with an all-zero pattern, encode_audio is not a graceful no-op.
numpy's normalization divides 0.0 by 0.0, producing NaN entries (a
RuntimeWarning, not an exception), and the int() conversion of
NaN * maxShift at the first full chunk raises ValueError, so the call fails
instead of returning the audio. -/
theorem encode_zero_pattern_error :
    encode_audio (List.replicate 2048 (1 : ℝ)) [(0 : ℚ)] 1
      = Except.error "cannot convert float NaN to integer" := by
  have hred : encode_audio (List.replicate 2048 (1 : ℝ)) [(0 : ℚ)] 1
      = encodeChunks (List.replicate 2048 (1 : ℝ)) [(0 : ℚ)] (maxAbs [(0 : ℚ)])
        (pyTrunc (1 / 1000 * 44100)) 2048
        (pyRange 0 (List.replicate 2048 (1 : ℝ)).length 2048) := by
    unfold encode_audio encode_phase_fractal
    rw [if_neg (by decide : ¬([(0 : ℚ)].length = 0))]
    norm_num
    rfl
  rw [hred, List.length_replicate]
  rw [(by decide : pyRange 0 2048 2048 = [0])]
  have hchunk : (((List.replicate 2048 (1 : ℝ)).drop 0).take 2048).length = 2048 := by
    rw [List.drop_zero, List.length_take, List.length_replicate, Nat.min_self]
  simp only [encodeChunks]
  rw [if_pos hchunk, if_pos (by decide : maxAbs [(0 : ℚ)] = 0)]

/-- C7: when the buffer length is not a multiple of the chunk size 2048, the
trailing partial chunk of the encoded buffer is identical to the input's
trailing segment — the final short chunk is never phase-shifted. -/
theorem encode_partial_chunk_passthrough (audio : List ℝ) (pattern : List ℚ)
    (s : ℚ) (hm : maxAbs pattern ≠ 0) (_hpart : audio.length % 2048 ≠ 0) :
    ∃ out, encode_audio audio pattern s = Except.ok out
      ∧ out.length = audio.length
      ∧ out.drop (audio.length - audio.length % 2048)
        = audio.drop (audio.length - audio.length % 2048) := by
  rw [encode_audio_eq_chunks audio pattern s hm]
  obtain ⟨out, hout, hlen, hdrop⟩ :=
    encodeChunks_ok audio pattern (maxAbs pattern) (pyTrunc (s / 1000 * 44100))
      2048 hm (by norm_num) audio.length 0 (by omega) (dvd_zero 2048) (by omega)
  rw [Nat.sub_zero] at hdrop
  exact ⟨out, hout, by omega, hdrop⟩

/-- C7 witness: a concrete instantiation of encode_partial_chunk_passthrough. -/
theorem encode_partial_chunk_passthrough_witness :
    maxAbs [(1 : ℚ)] ≠ 0 ∧ ([(1 : ℝ), 2, 3] : List ℝ).length % 2048 ≠ 0 ∧
      ∃ out, encode_audio [(1 : ℝ), 2, 3] [(1 : ℚ)] 5 = Except.ok out
        ∧ out.length = ([(1 : ℝ), 2, 3] : List ℝ).length
        ∧ out.drop (([(1 : ℝ), 2, 3] : List ℝ).length
              - ([(1 : ℝ), 2, 3] : List ℝ).length % 2048)
          = ([(1 : ℝ), 2, 3] : List ℝ).drop (([(1 : ℝ), 2, 3] : List ℝ).length
              - ([(1 : ℝ), 2, 3] : List ℝ).length % 2048) :=
  ⟨by decide, by decide,
    encode_partial_chunk_passthrough [(1 : ℝ), 2, 3] [(1 : ℚ)] 5
      (by decide) (by decide)⟩

/-- C8 counterexample: an empty audio buffer is not rejected — encoding it
with a valid pattern returns an (empty) buffer instead of an
InvalidArgument-equivalent failure. -/
theorem encode_empty_audio_ok :
    encode_phase_fractal ([] : List ℝ) [(1 : ℚ)] 1 2048 = Except.ok [] := by
  rfl

/-- C8 amended: of the malformed inputs, only a zero-length pattern (numpy
reduction over an empty array) and a zero chunk size (range() step) fail
fast with a ValueError; an empty audio buffer is silently encoded to an
empty buffer, and a negative chunk size silently returns an empty buffer
for any audio. -/
theorem encode_malformed_cases (audio : List ℝ) (pattern : List ℚ) (s : ℚ)
    (cs : ℤ) :
    (encode_phase_fractal audio [] s cs
        = Except.error "zero-size array to reduction operation maximum which has no identity")
    ∧ (pattern ≠ [] → encode_phase_fractal audio pattern s 0
        = Except.error "range() arg 3 must not be zero")
    ∧ (pattern ≠ [] → cs ≠ 0 → encode_phase_fractal ([] : List ℝ) pattern s cs
        = Except.ok [])
    ∧ (pattern ≠ [] → cs < 0 → encode_phase_fractal audio pattern s cs
        = Except.ok []) := by
  refine ⟨rfl, ?_, ?_, ?_⟩
  · intro hp
    simp [encode_phase_fractal, List.length_eq_zero, hp]
  · intro hp hcs
    by_cases hneg : cs < 0
    · simp [encode_phase_fractal, List.length_eq_zero, hp, hcs, hneg]
    · simp only [encode_phase_fractal, List.length_eq_zero]
      rw [if_neg hp, if_neg hcs, if_neg hneg,
        pyRange_eq_nil 0 ([] : List ℝ).length cs.toNat (by simp)]
      rfl
  · intro hp hneg
    simp only [encode_phase_fractal, List.length_eq_zero]
    rw [if_neg hp, if_neg (by omega : ¬cs = 0), if_pos hneg]

/-- C8 witness: concrete instantiations of the four cases of
encode_malformed_cases. -/
theorem encode_malformed_cases_witness :
    (encode_phase_fractal [(1 : ℝ)] [] 1 4
        = Except.error "zero-size array to reduction operation maximum which has no identity")
    ∧ (encode_phase_fractal [(1 : ℝ)] [(1 : ℚ)] 1 0
        = Except.error "range() arg 3 must not be zero")
    ∧ (encode_phase_fractal ([] : List ℝ) [(1 : ℚ)] 1 4 = Except.ok [])
    ∧ (encode_phase_fractal [(1 : ℝ)] [(1 : ℚ)] 1 (-3) = Except.ok []) :=
  ⟨(encode_malformed_cases [(1 : ℝ)] [(1 : ℚ)] 1 4).1,
   (encode_malformed_cases [(1 : ℝ)] [(1 : ℚ)] 1 0).2.1 (by decide),
   (encode_malformed_cases [(1 : ℝ)] [(1 : ℚ)] 1 4).2.2.1 (by decide) (by decide),
   (encode_malformed_cases [(1 : ℝ)] [(1 : ℚ)] 1 (-3)).2.2.2 (by decide) (by decide)⟩

/-- C2: the detection verdict is not seed-specific.  detect_fractal_pattern
ignores its input entirely and returns the placeholder True, and
verify_encoding copies that constant into the encoding_detected field, so a
buffer encoded with one seed's pattern is reported as detected no matter
which seed's pattern the verifier assumes. -/
theorem detect_always_true (buffer original encoded : List ℝ) (t : ℝ)
    (h : original.length = encoded.length) :
    detect_fractal_pattern buffer = true ∧
      ∃ r, verify_encoding original encoded t = Except.ok r
        ∧ r.encoding_detected = true := by
  constructor
  · rfl
  · unfold verify_encoding
    rw [if_pos h]
    exact ⟨_, rfl, rfl⟩

/-- C2 witness: a concrete instantiation of detect_always_true. -/
theorem detect_always_true_witness :
    detect_fractal_pattern [(5 : ℝ)] = true ∧
      ∃ r, verify_encoding [(1 : ℝ), 2] [(3 : ℝ), 4] (99 / 100) = Except.ok r
        ∧ r.encoding_detected = true :=
  detect_always_true [(5 : ℝ)] [(1 : ℝ), 2] [(3 : ℝ), 4] (99 / 100) rfl

/-! Pearson correlation: the covariance-based coefficient of the source
equals the textbook Pearson coefficient, and numpy's clip to [-1, 1] is the
identity on it (Cauchy-Schwarz). -/

theorem listDot_self_nonneg (u : List ℝ) : 0 ≤ listDot u u := by
  unfold listDot
  induction u with
  | nil => simp
  | cons a t ih =>
    rw [List.zipWith_cons_cons, List.sum_cons]
    exact add_nonneg (mul_self_nonneg a) ih

theorem listDot_eq_sum (u v : List ℝ) (h : u.length = v.length) :
    listDot u v = ∑ i ∈ Finset.range u.length, u.getD i 0 * v.getD i 0 := by
  induction u generalizing v with
  | nil => simp [listDot]
  | cons a t ih =>
    cases v with
    | nil => simp at h
    | cons b w =>
      have ht : t.length = w.length := by simpa using h
      unfold listDot
      rw [List.zipWith_cons_cons, List.sum_cons, List.length_cons,
        Finset.sum_range_succ' (fun i => (a :: t).getD i 0 * (b :: w).getD i 0)]
      simp only [List.getD_cons_succ, List.getD_cons_zero]
      rw [← listDot, ih w ht]
      ring

theorem listDot_sq_le (u v : List ℝ) (h : u.length = v.length) :
    listDot u v ^ 2 ≤ listDot u u * listDot v v := by
  rw [listDot_eq_sum u v h, listDot_eq_sum u u rfl, listDot_eq_sum v v rfl, ← h]
  have hcs := Finset.sum_mul_sq_le_sq_mul_sq (Finset.range u.length)
    (fun i => u.getD i 0) (fun i => v.getD i 0)
  simpa [pow_two] using hcs

theorem centered_length (xs : List ℝ) : (centered xs).length = xs.length := by
  unfold centered
  exact List.length_map xs _

theorem abs_listDot_le (u v : List ℝ) (h : u.length = v.length) :
    |listDot u v| ≤ Real.sqrt (listDot u u) * Real.sqrt (listDot v v) := by
  have hb : 0 ≤ Real.sqrt (listDot u u) * Real.sqrt (listDot v v) :=
    mul_nonneg (Real.sqrt_nonneg _) (Real.sqrt_nonneg _)
  have h2 : listDot u v ^ 2
      ≤ (Real.sqrt (listDot u u) * Real.sqrt (listDot v v)) ^ 2 := by
    rw [mul_pow, Real.sq_sqrt (listDot_self_nonneg u),
      Real.sq_sqrt (listDot_self_nonneg v)]
    exact listDot_sq_le u v h
  have h3 := Real.sqrt_le_sqrt h2
  rwa [Real.sqrt_sq_eq_abs, Real.sqrt_sq_eq_abs, abs_of_nonneg hb] at h3

theorem npClip_pearson (xs ys : List ℝ) (h : xs.length = ys.length) :
    npClip (pearson xs ys) (-1) 1 = pearson xs ys := by
  unfold pearson
  set a := listDot (centered xs) (centered ys) with ha
  set P := Real.sqrt (listDot (centered xs) (centered xs))
    * Real.sqrt (listDot (centered ys) (centered ys)) with hP
  by_cases hP0 : P = 0
  · rw [hP0, div_zero]
    unfold npClip
    norm_num
  · have hPpos : 0 < P := lt_of_le_of_ne
      (mul_nonneg (Real.sqrt_nonneg _) (Real.sqrt_nonneg _)) (Ne.symm hP0)
    have habs : |a| ≤ P := by
      rw [ha, hP]
      exact abs_listDot_le (centered xs) (centered ys)
        (by rw [centered_length, centered_length, h])
    have hle : a / P ≤ 1 := by
      rw [div_le_one hPpos]
      exact le_trans (le_abs_self a) habs
    have hge : -1 ≤ a / P := by
      rw [neg_le, ← neg_div, div_le_one hPpos]
      exact le_trans (neg_le_abs a) habs
    unfold npClip
    rw [min_eq_left hle, max_eq_right hge]

theorem corrcoef01_eq_pearson (xs ys : List ℝ) (h : xs.length = ys.length) :
    corrcoef01 xs ys = pearson xs ys := by
  have hkey : covEntry xs ys
      / (Real.sqrt (covEntry xs xs) * Real.sqrt (covEntry ys ys))
      = pearson xs ys := by
    unfold covEntry pearson
    rw [← h]
    set a := listDot (centered xs) (centered ys) with ha
    set sxx := listDot (centered xs) (centered xs) with hsxx
    set syy := listDot (centered ys) (centered ys) with hsyy
    rcases Nat.eq_zero_or_pos xs.length with hn0 | hnpos
    · have hxs : xs = [] := List.length_eq_zero.mp hn0
      have hys : ys = [] := List.length_eq_zero.mp (by omega)
      subst hxs
      have : a = 0 := by
        rw [ha, hys]
        simp [centered, listDot]
      rw [this]
      simp
    · by_cases hn1 : xs.length = 1
      · obtain ⟨x, hx⟩ := List.length_eq_one.mp hn1
        obtain ⟨y, hy⟩ := List.length_eq_one.mp (show ys.length = 1 by omega)
        have ha0 : a = 0 := by
          rw [ha, hx, hy]
          simp [centered, listDot, npMean]
        rw [ha0]
        simp
      · have hd : ((xs.length : ℝ) - 1) ≠ 0 := by
          have : (2 : ℕ) ≤ xs.length := by omega
          have h2 : (2 : ℝ) ≤ (xs.length : ℝ) := by exact_mod_cast this
          intro hc
          have : (xs.length : ℝ) = 1 := by linarith
          linarith
        have hdnn : (0 : ℝ) ≤ (xs.length : ℝ) - 1 := by
          have : (1 : ℕ) ≤ xs.length := hnpos
          have h1 : (1 : ℝ) ≤ (xs.length : ℝ) := by exact_mod_cast this
          linarith
        rw [Real.sqrt_div (by rw [hsxx]; exact listDot_self_nonneg _) _,
          Real.sqrt_div (by rw [hsyy]; exact listDot_self_nonneg _) _,
          div_mul_div_comm, Real.mul_self_sqrt hdnn]
        by_cases hP : Real.sqrt sxx * Real.sqrt syy = 0
        · rw [hP, zero_div, div_zero, div_zero]
        · field_simp
  unfold corrcoef01
  rw [hkey]
  exact npClip_pearson xs ys h

/-- C9 counterexample: with buffers of different lengths, verification does
not truncate to the shorter length — np.corrcoef's stacking of the rows
raises ValueError and the call fails. -/
theorem verify_length_mismatch_error :
    verify_encoding [(1 : ℝ), 2, 3] [(1 : ℝ), 2] (99 / 100)
      = Except.error
        "all the input array dimensions except for the concatenation axis must match exactly" := by
  unfold verify_encoding
  rw [if_neg (by decide)]

/-- C9 amended: for equal-length buffers the correlation field is exactly
the Pearson correlation coefficient of the two buffers (the covariance
normalization by N - 1 cancels, and numpy's clip to [-1, 1] is the identity
by Cauchy-Schwarz); for buffers of different lengths verify fails with
numpy's dimension-mismatch ValueError instead of truncating. -/
theorem verify_correlation_pearson (xs ys : List ℝ) (t : ℝ) :
    (xs.length = ys.length →
      ∃ r, verify_encoding xs ys t = Except.ok r
        ∧ r.correlation = pearson xs ys)
    ∧ (xs.length ≠ ys.length →
      verify_encoding xs ys t
        = Except.error
          "all the input array dimensions except for the concatenation axis must match exactly") := by
  constructor
  · intro h
    unfold verify_encoding
    rw [if_pos h]
    exact ⟨_, rfl, corrcoef01_eq_pearson xs ys h⟩
  · intro h
    unfold verify_encoding
    rw [if_neg h]

/-- C9 witness: a concrete instantiation of verify_correlation_pearson. -/
theorem verify_correlation_pearson_witness :
    ∃ r, verify_encoding [(1 : ℝ), 2] [(1 : ℝ), 2] (1 / 2) = Except.ok r
      ∧ r.correlation = pearson [(1 : ℝ), 2] [(1 : ℝ), 2] :=
  (verify_correlation_pearson [(1 : ℝ), 2] [(1 : ℝ), 2] (1 / 2)).1 rfl

end FractalCodec
